import Mathlib

/-!
Shallow embedding of the lot-allocation engine of the Agentic-Sales-Order-App
repository (backend/src/utils/business_central_auth.py and
backend/src/utils/lot_selector.py), together with proofs settling the
specification claims about it.

Python decimals/floats are modelled by `ℚ`; `round(x, n)` (numpy/Python
round-half-to-even on the decimal value) is modelled by `roundTo n`;
`datetime.date` by `PDate`; `datetime.strptime(s, "%Y-%m-%d")` by
`parseDate`; dictionaries by association lists or explicit record types.
-/

namespace SalesOrder

/-- A calendar date as produced by `datetime.strptime(_, "%Y-%m-%d").date()`.
Python `date` objects compare lexicographically on (year, month, day); since
`parseDate` only produces months ≤ 12 and days ≤ 31, that order coincides with
the order of `dateKey`. -/
structure PDate where
  year : ℕ
  month : ℕ
  day : ℕ
deriving DecidableEq, Repr

/-- Linear key for comparing dates; for dates with month ≤ 99 and day ≤ 99
(all parseable dates) this agrees with lexicographic (year, month, day). -/
def dateKey (d : PDate) : ℕ := d.year * 10000 + d.month * 100 + d.day

/-- Gregorian leap-year test, as in Python's `calendar`/`datetime`. -/
def isLeap (y : ℕ) : Bool := y % 4 = 0 && (y % 100 ≠ 0 || y % 400 = 0)

/-- Number of days in a month, as validated by `datetime.date`. -/
def daysInMonth (y m : ℕ) : ℕ :=
  if m = 2 then (if isLeap y then 29 else 28)
  else if m = 4 ∨ m = 6 ∨ m = 9 ∨ m = 11 then 30
  else 31

/-- Split a character list on the character `-`, as `"%Y-%m-%d"` matching
decomposes its input. -/
def splitDashAux : List Char → List Char → List (List Char)
  | [], acc => [acc.reverse]
  | c :: rest, acc =>
      if c = '-' then acc.reverse :: splitDashAux rest []
      else splitDashAux rest (c :: acc)

def splitDash (cs : List Char) : List (List Char) := splitDashAux cs []

/-- Numeric value of a run of ASCII digits; `none` if empty or non-digit,
mirroring what the `%Y`/`%m`/`%d` directives accept. -/
def digitsToNat : List Char → Option ℕ
  | [] => none
  | cs =>
      if cs.all Char.isDigit then
        some (cs.foldl (fun n c => n * 10 + (c.toNat - 48)) 0)
      else none

/-- `datetime.strptime(s, "%Y-%m-%d").date()`: three dash-separated digit
fields (year up to 4 digits, month and day up to 2), then calendar
validation; `none` models the `ValueError` raised on malformed input. -/
def parseDate (s : String) : Option PDate :=
  match splitDash s.data with
  | [ys, ms, ds] =>
      if ys.length ≤ 4 ∧ ms.length ≤ 2 ∧ ds.length ≤ 2 then
        match digitsToNat ys, digitsToNat ms, digitsToNat ds with
        | some y, some m, some d =>
            if 1 ≤ y ∧ y ≤ 9999 ∧ 1 ≤ m ∧ m ≤ 12 ∧ 1 ≤ d ∧ d ≤ daysInMonth y m
            then some ⟨y, m, d⟩ else none
        | _, _, _ => none
      else none
  | _ => none

/-- Decimal digits of a natural number, with structural fuel recursion so
that concrete values reduce definitionally. -/
def natDigitsAux : ℕ → ℕ → List Char
  | 0, _ => []
  | fuel + 1, n =>
      if n < 10 then [Char.ofNat (n + 48)]
      else natDigitsAux fuel (n / 10) ++ [Char.ofNat (n % 10 + 48)]

/-- Decimal digits of a natural number (`toString`-style). -/
def natDigits (n : ℕ) : List Char := natDigitsAux (n + 1) n

/-- Zero-pad a numeral to the given width, as `date.isoformat` does. -/
def padNat (width n : ℕ) : String :=
  let ds := natDigits n
  ⟨List.replicate (width - ds.length) '0' ++ ds⟩

/-- `date.isoformat()` / `strftime("%Y-%m-%d")`. -/
def isoDate (d : PDate) : String :=
  padNat 4 d.year ++ "-" ++ padNat 2 d.month ++ "-" ++ padNat 2 d.day

/-- Round a rational to the nearest integer, ties to even: the rounding used
by Python's `round` and numpy's `.round` on decimal values. -/
def rhe (q : ℚ) : ℤ :=
  if q - ⌊q⌋ = 1 / 2 then (if ⌊q⌋ % 2 = 0 then ⌊q⌋ else ⌊q⌋ + 1)
  else round q

/-- `round(q, n)`: round to `n` decimal places, ties to even. -/
def roundTo (n : ℕ) (q : ℚ) : ℚ := (rhe (q * 10 ^ n) : ℚ) / 10 ^ n

/-- Code-point comparison of character lists: Python string `<=`. -/
def strLeB : List Char → List Char → Bool
  | [], _ => true
  | _ :: _, [] => false
  | a :: as, b :: bs =>
      if a.toNat < b.toNat then true
      else if b.toNat < a.toNat then false
      else strLeB as bs

/-- Python string comparison `a <= b` (code-point lexicographic). -/
def strLe (a b : String) : Bool := strLeB a.data b.data

/-- Characters admitted inside a PO token by the regex `#([^-\s#/]+)-`:
anything except `-`, `#`, `/` and whitespace. -/
def poAllowed (c : Char) : Bool :=
  !(c = '-' || c = '#' || c = '/' || c = ' ' || c = '\t' || c = '\n' ||
    c = '\r' || c = '\x0b' || c = '\x0c')

/-- Leftmost match of `#([^-\s#/]+)-` over a character list: at each `#`, the
maximal run of admitted characters must be non-empty and followed by `-`
(the character class excludes `-`, so greedy matching cannot backtrack into a
successful shorter run); otherwise the search continues to the right. -/
def getPOAux : List Char → Option (List Char)
  | [] => none
  | c :: rest =>
      if c = '#' then
        let run := rest.takeWhile poAllowed
        match rest.drop run.length with
        | '-' :: _ => if run.isEmpty then getPOAux rest else some run
        | _ => getPOAux rest
      else getPOAux rest

/-- `get_PO(lot_no)`: extract the purchase-order token from a lot number,
`none` when the pattern does not match (the catch-all group). -/
def get_PO (lot_no : String) : Option String :=
  (getPOAux lot_no.data).map fun cs => ⟨cs⟩

/-- Stable insertion of `a` into `l`: `a` is placed before the first element
`b` with `le a b`. -/
def insertLe (le : α → α → Bool) (a : α) : List α → List α
  | [] => [a]
  | b :: l => if le a b then a :: b :: l else b :: insertLe le a l

/-- Stable sort by the boolean relation `le` (a total preorder in all uses):
with `le x y = (key x ≤ key y)` this computes the same list as Python's
stable `list.sort(key=...)` / `sorted(key=...)`. -/
def sortLe (le : α → α → Bool) : List α → List α
  | [] => []
  | a :: l => insertLe le a (sortLe le l)

/-- Concatenation of a list of lists. -/
def catLists : List (List α) → List α
  | [] => []
  | l :: ls => l ++ catLists ls

/-- A posting-date value as stored in a lot record: either the raw string
from the ledger JSON, or the `datetime.date` object that
`allocate_item_lots_fifo` writes back into the record in place. -/
inductive DateVal where
  | str (s : String)
  | dt (d : PDate)
deriving DecidableEq, Repr

/-- One entry of `lot_data["Lot_Records"]` as seen by
`allocate_item_lots_fifo`: lot number, 2-decimal available quantity,
posting date, and the `PO` key (`none` models the key being absent, as in the
records the aggregator produces; `some po` models a present key). -/
structure LotDict where
  lot_no : String
  avail : ℚ
  posting : DateVal
  po : Option (Option String)
deriving DecidableEq, Repr

/-- `to_date(v)` inside `allocate_item_lots_fifo`: a `date` object passes
through, a string is parsed with `"%Y-%m-%d"`; `none` models the raised
exception on malformed input. -/
def to_date : DateVal → Option PDate
  | .dt d => some d
  | .str s => parseDate s

/-- One pass of the parse-and-tag loop on a single record: on success the
record's `Posting_Date` is overwritten with the parsed date and a `PO` key is
set; on a date-parse failure the record is left untouched (the loop catches
the exception, logs and continues). -/
def stepRec (r : LotDict) : LotDict :=
  match to_date r.posting with
  | some d => { r with posting := .dt d, po := some (get_PO r.lot_no) }
  | none => r

/-- The in-place mutation `allocate_item_lots_fifo` performs on its input
`Lot_Records` list before grouping. -/
def processRecords (rs : List LotDict) : List LotDict := rs.map stepRec

/-- A fully processed lot record: parsed date and present `PO` key. -/
structure ProcRec where
  lot_no : String
  avail : ℚ
  pdate : PDate
  po : Option String
deriving DecidableEq, Repr

/-- View a record as fully processed; `none` when the grouping step
`groups[lot["PO"]]` would raise (`PO` key absent after a parse failure) or
the date is still unparsed. -/
def toProc (r : LotDict) : Option ProcRec :=
  match r.posting, r.po with
  | .dt d, some p => some ⟨r.lot_no, r.avail, d, p⟩
  | _, _ => none

/-- Append a processed lot to its PO group, preserving the first-occurrence
order of groups (Python dict insertion order) and of lots within a group. -/
def addLot (gs : List (Option String × List ProcRec)) (l : ProcRec) :
    List (Option String × List ProcRec) :=
  match gs with
  | [] => [(l.po, [l])]
  | (k, ls) :: tl =>
      if k = l.po then (k, ls ++ [l]) :: tl else (k, ls) :: addLot tl l

/-- `groups = defaultdict(list); for lot in lot_records: groups[lot["PO"]].append(lot)`. -/
def groupByPO (ps : List ProcRec) : List (Option String × List ProcRec) :=
  ps.foldl addLot []

/-- Date order on processed lots, the key of the in-group sort. -/
def lotDateLe (a b : ProcRec) : Bool := dateKey a.pdate ≤ dateKey b.pdate

/-- Earliest posting date of a (sorted) group, `items[0]["Posting_Date"]`. -/
def earliestKey (g : Option String × List ProcRec) : ℕ :=
  match g.2 with
  | [] => 0
  | l :: _ => dateKey l.pdate

/-- Order on PO groups: by earliest posting date of the date-sorted group. -/
def groupLe (a b : Option String × List ProcRec) : Bool :=
  earliestKey a ≤ earliestKey b

/-- Steps 3–6 of `allocate_item_lots_fifo`: group by PO, sort each group by
posting date (stable), order the groups by their earliest posting date
(stable), and flatten into the FIFO sequence. -/
def orderedLots (ps : List ProcRec) : List ProcRec :=
  let gs := (groupByPO ps).map fun g => (g.1, sortLe lotDateLe g.2)
  catLists ((sortLe groupLe gs).map Prod.snd)

/-- One element of `Selected_Lots`. -/
structure SelEntry where
  lot_no : String
  po : Option String
  posting : String
  qty : ℚ
deriving DecidableEq, Repr

/-- The selection recorded for lot `l` when `take` is consumed from it:
`Selected_Qty` is `round(take, 4)`. -/
def mkEntry (l : ProcRec) (take : ℚ) : SelEntry :=
  ⟨l.lot_no, l.po, isoDate l.pdate, roundTo 4 take⟩

/-- Step 7 of `allocate_item_lots_fifo`: walk the FIFO sequence, take
`min(available, remaining_need)` from each lot while the need is positive,
recording only strictly positive takes. Returns the selections and the final
remaining need. -/
def allocLoop : List ProcRec → ℚ → List SelEntry × ℚ
  | [], need => ([], need)
  | l :: ls, need =>
      if need ≤ 0 then ([], need)
      else
        let take := min l.avail need
        if 0 < take then
          let r := allocLoop ls (need - take)
          (mkEntry l take :: r.1, r.2)
        else allocLoop ls need

/-- The input of `allocate_item_lots_fifo` (`lot_data`). -/
structure FifoInput where
  item_no : String
  line_no : String
  location_code : String
  qty : ℚ
  records : List LotDict
deriving DecidableEq, Repr

/-- The allocation summary returned by `allocate_item_lots_fifo`. -/
structure AllocOut where
  item_no : String
  line_no : String
  location_code : String
  requested_qty : ℚ
  selected : List SelEntry
  unfulfilled : ℚ
deriving DecidableEq, Repr

/-- `allocate_item_lots_fifo(lot_data)`. The parse loop mutates the records
(`processRecords`); if any record is left unprocessed (malformed posting
date), the grouping step raises a `KeyError` on the missing `PO` key, which
propagates out of the call — modelled by the `.error` branch. Otherwise the
FIFO sequence is built and consumed, and `Unfulfilled_Qty` is
`round(remaining_need, 4)`. -/
def allocateFifo (inp : FifoInput) : Except String AllocOut :=
  let ps := processRecords inp.records
  if ps.all fun r => (toProc r).isSome then
    let res := allocLoop (orderedLots (ps.filterMap toProc)) inp.qty
    .ok ⟨inp.item_no, inp.line_no, inp.location_code, inp.qty, res.1,
      roundTo 4 res.2⟩
  else .error "KeyError"

/-- Successful result of `allocateFifo` as an `Option`, for decidable
concrete statements. -/
def allocOk (inp : FifoInput) : Option AllocOut := (allocateFifo inp).toOption

/-- Sum of available quantities over the lots with strictly positive
availability. -/
def posSum (ls : List ProcRec) : ℚ :=
  ((ls.filter fun l => decide (0 < l.avail)).map fun l => l.avail).sum

/-- One raw ledger row as consumed by `group_lot_records` (the OData fields
the aggregation touches). -/
structure RawLedger where
  lot_no : String
  remaining : ℚ
  posting : String
deriving DecidableEq, Repr

/-- One aggregated row of `lots_df` after grouping, mapping and the
2-decimal rounding. -/
structure AggLot where
  lot_no : String
  remaining : ℚ
  posting : String
  requested : ℚ
  available : ℚ
deriving DecidableEq, Repr

/-- `requested_qty_map.get(lot_no)` with `fillna(0)`: look up an association
list, defaulting to 0 when the key is absent. -/
def lookupQty (req : List (String × ℚ)) (k : String) : ℚ :=
  match req.find? fun p => p.1 = k with
  | some p => p.2
  | none => 0

/-- First-occurrence deduplication of the grouping keys. -/
def dedupKeys : List String → List String
  | [] => []
  | k :: ks => k :: (dedupKeys ks).filter fun j => j ≠ k

/-- Maximum of a list of strings under code-point order (pandas `max` on an
object column of strings); the empty default is never reached on the
non-empty groups the aggregation builds. -/
def maxString (l : List String) : String :=
  l.foldl (fun a b => if strLe a b then b else a) ""

/-- The data core of `group_lot_records`:
`df.groupby("Lot_No").agg({"Remaining_Quantity": "sum", "Posting_Date": "max"})`
(pandas sorts group keys ascending), then
`Requested_Quantity = map(requested_qty_map).fillna(0)` and
`Available_Quantity = (Remaining_Quantity + Requested_Quantity).round(2)`. -/
def aggregate (records : List RawLedger) (req : List (String × ℚ)) :
    List AggLot :=
  (sortLe strLe (dedupKeys (records.map fun r => r.lot_no))).map fun k =>
    let grp := records.filter fun r => r.lot_no = k
    let rem := (grp.map fun r => r.remaining).sum
    let rq := lookupQty req k
    ⟨k, rem, maxString (grp.map fun r => r.posting), rq, roundTo 2 (rem + rq)⟩

/-- One row of the `available_lots` DataFrame given to `LotSelector`. -/
structure SLot where
  lot_no : String
  remaining : ℚ
  posting : String
deriving DecidableEq, Repr

/-- A `LotSelector` row after `pd.to_datetime` succeeded. -/
structure SelLotP where
  lot_no : String
  remaining : ℚ
  pdate : PDate
deriving DecidableEq, Repr

/-- One entry of `LotSelector.selected_lots`. -/
structure SelRecord where
  lot_no : String
  available_qty : ℚ
  allocated_qty : ℚ
  remaining_after : ℚ
  posting : String
deriving DecidableEq, Repr

/-- The instance state of a `LotSelector`: the date-sorted available lots and
the accumulated `selected_lots` list. -/
structure SelState where
  available : List SelLotP
  selected : List SelRecord
deriving DecidableEq, Repr

/-- Date order on parsed selector rows. -/
def selDateLe (a b : SelLotP) : Bool := dateKey a.pdate ≤ dateKey b.pdate

/-- `LotSelector.__init__`: parse every `Posting_Date` (raising `ValueError`
if any fails), sort by posting date (stable), start with an empty
`selected_lots`. `pd.to_datetime` accepts ISO `"%Y-%m-%d"` strings exactly as
`parseDate` does. -/
def selInit (lots : List SLot) : Except String SelState :=
  match lots.mapM fun l =>
      (parseDate l.posting).map fun d => (⟨l.lot_no, l.remaining, d⟩ : SelLotP) with
  | some ps => .ok ⟨sortLe selDateLe ps, []⟩
  | none => .error "ValueError"

/-- The FIFO walk of `LotSelector.allocate`: every processed lot is recorded
(no positivity guard), and `remaining_to_allocate` decreases by
`min(available, remaining)`. -/
def selLoop : List SelLotP → ℚ → List SelRecord
  | [], _ => []
  | l :: ls, rem =>
      if rem ≤ 0 then []
      else
        let take := min l.remaining rem
        ⟨l.lot_no, l.remaining, take, l.remaining - take, isoDate l.pdate⟩ ::
          selLoop ls (rem - take)

/-- `LotSelector.allocate(required_qty)`: raises `ValueError` on
`required_qty <= 0`; otherwise appends the new selections to the instance's
accumulated `selected_lots` and returns that whole list together with the
updated instance state. -/
def selAllocate (st : SelState) (q : ℚ) :
    Except String (List SelRecord × SelState) :=
  if q ≤ 0 then .error "ValueError"
  else
    let sels := st.selected ++ selLoop st.available q
    .ok (sels, ⟨st.available, sels⟩)

/-- The value returned by `allocate_sales_order_lots`: an empty list when
retrieving the lot details raised, or a status/lot_list/selected_lots
mapping on success. -/
inductive OrchResult where
  | emptyList : OrchResult
  | dict (status : String) (lot_list : List FifoInput)
      (selected_lots : List AllocOut) : OrchResult
deriving DecidableEq, Repr

/-- `allocate_sales_order_lots`, parameterised by the outcome of
`get_sales_order_lot_details` (an external HTTP fetch): on an exception it
returns `[]`; on success it allocates every item, skipping the ones whose
allocation raises, and returns the status dict. -/
def allocateSalesOrderLots (fetch : Except String (List FifoInput)) :
    OrchResult :=
  match fetch with
  | .error _ => .emptyList
  | .ok lot_list =>
      .dict "success" lot_list
        (lot_list.filterMap fun ld => (allocateFifo ld).toOption)

/-- Sum of `Selected_Qty` over a selection list. -/
def selQtySum (sels : List SelEntry) : ℚ := (sels.map fun s => s.qty).sum

/-! ### Concrete instances used to settle the claims -/

/-- A well-formed single-lot input: 5 available, 3 required. -/
def exC1 : FifoInput :=
  ⟨"I-100", "10000", "WH", 3,
   [⟨"L1#24060015-1520", 5, .str "2024-01-01", none⟩]⟩

/-- Two lots whose total availability (5 + (-5) = 0) is below the required 1,
but whose positive lot alone (5) covers the requirement. -/
def exC2 : FifoInput :=
  ⟨"I-100", "10000", "WH", 1,
   [⟨"A#P1-1", 5, .str "2024-01-01", none⟩,
    ⟨"B#P1-2", -5, .str "2024-01-02", none⟩]⟩

/-- The insufficient-stock witness input: 7 required, one lot with 5. -/
def exC2w : FifoInput :=
  ⟨"I-100", "10000", "WH", 7,
   [⟨"A#P1-1", 5, .str "2024-01-01", none⟩]⟩

/-- The three-lot PO-grouping example of the specification. -/
def exC3 : FifoInput :=
  ⟨"ITEM", "1", "LOC", 12,
   [⟨"A#PO1-1", 5, .str "2024-03-01", none⟩,
    ⟨"B#PO2-1", 5, .str "2024-01-01", none⟩,
    ⟨"C#PO1-2", 5, .str "2024-02-01", none⟩]⟩

/-- Processed forms of the three lots of `exC3`. -/
def pC3A : ProcRec := ⟨"A#PO1-1", 5, ⟨2024, 3, 1⟩, some "PO1"⟩

def pC3B : ProcRec := ⟨"B#PO2-1", 5, ⟨2024, 1, 1⟩, some "PO2"⟩

def pC3C : ProcRec := ⟨"C#PO1-2", 5, ⟨2024, 2, 1⟩, some "PO1"⟩

/-- The allocation the specification's example demands: B fully, then C
fully, then A partially. -/
def outC3 : AllocOut :=
  ⟨"ITEM", "1", "LOC", 12,
   [⟨"B#PO2-1", some "PO2", "2024-01-01", 5⟩,
    ⟨"C#PO1-2", some "PO1", "2024-02-01", 5⟩,
    ⟨"A#PO1-1", some "PO1", "2024-03-01", 2⟩], 0⟩

/-- Processed forms of the two lots of `exC2`. -/
def pC2A : ProcRec := ⟨"A#P1-1", 5, ⟨2024, 1, 1⟩, some "P1"⟩

def pC2B : ProcRec := ⟨"B#P1-2", -5, ⟨2024, 1, 2⟩, some "P1"⟩

/-- What `allocate_item_lots_fifo` actually returns on `exC2`: the positive
lot is only partially consumed (1 of 5) and nothing is unfulfilled. -/
def outC2 : AllocOut :=
  ⟨"I-100", "10000", "WH", 1, [⟨"A#P1-1", some "P1", "2024-01-01", 1⟩], 0⟩

/-- An input with a mixed positive/non-positive lot set. -/
def exC4 : FifoInput :=
  ⟨"I-100", "10000", "WH", 4,
   [⟨"A#P1-1", -2, .str "2024-01-01", none⟩,
    ⟨"B#P1-2", 9, .str "2024-01-02", none⟩]⟩

/-- A zero-required-quantity input: the FIFO allocator returns normally. -/
def exC5 : FifoInput := ⟨"I-100", "10000", "WH", 0, []⟩

/-- The result `allocate_item_lots_fifo` returns for `exC5`. -/
def outC5 : AllocOut := ⟨"I-100", "10000", "WH", 0, [], 0⟩

/-- Two raw ledger rows for one lot, remaining 3 and 4, the second later. -/
def exC6recs : List RawLedger :=
  [⟨"LOT-7", 3, "2024-01-05"⟩, ⟨"LOT-7", 4, "2024-02-01"⟩]

/-- A selector over a single lot, used to exhibit `LotSelector`'s
accumulating instance state. -/
def exC7lots : List SLot := [⟨"L001", 100, "2025-01-10"⟩]

/-- The selector state `LotSelector.__init__(exC7lots)` builds. -/
def exC7st : SelState := ⟨[⟨"L001", 100, ⟨2025, 1, 10⟩⟩], []⟩

/-- An input whose single lot has an unparseable posting date. -/
def exC8 : FifoInput :=
  ⟨"I-100", "10000", "WH", 3, [⟨"L1#24060015-1520", 5, .str "not-a-date", none⟩]⟩

/-- A record with a string posting date, mutated in place by the parse
loop. -/
def exC9rec : LotDict := ⟨"L1#24060015-1520", 5, .str "2024-01-01", none⟩

/-- The aggregated lot the specification's round-trip example expects. -/
def aggC6 : AggLot := ⟨"LOT-7", 7, "2024-02-01", 0, 7⟩

/-- The record `LotSelector.allocate` appends for `exC7st` with required
quantity 5. -/
def selRecC7 : SelRecord := ⟨"L001", 100, 5, 95, "2025-01-10"⟩

/-- Availability is an exact 2-decimal value, the invariant of
`Available_Quantity` established by the aggregator's `.round(2)`. -/
def isCent (x : ℚ) : Prop := ∃ k : ℤ, x = (k : ℚ) / 100

/-- Sum of positive available quantities of raw lot records. -/
def posSumRaw (rs : List LotDict) : ℚ :=
  ((rs.filter fun r => decide (0 < r.avail)).map fun r => r.avail).sum

/-- Positive-availability sum on (lot number, availability) pairs. -/
def pairPosSum (l : List (String × ℚ)) : ℚ :=
  ((l.filter fun q => decide (0 < q.2)).map Prod.snd).sum

/-- Projection of a processed lot to its identifying pair. -/
def projP (p : ProcRec) : String × ℚ := (p.lot_no, p.avail)

/-- Projection of a raw lot record to its identifying pair. -/
def projR (r : LotDict) : String × ℚ := (r.lot_no, r.avail)

/-! ### Rounding lemmas -/

theorem rhe_intCast (k : ℤ) : rhe (k : ℚ) = k := by
  unfold rhe
  rw [Int.floor_intCast]
  norm_num

theorem abs_rhe_sub (q : ℚ) : |(rhe q : ℚ) - q| ≤ 1 / 2 := by
  unfold rhe
  split_ifs with h1 h2
  · rw [abs_le]
    constructor <;> linarith
  · push_cast
    rw [abs_le]
    constructor <;> linarith
  · rw [abs_sub_comm]
    exact abs_sub_round q

theorem roundTo_eq_self (n : ℕ) (x : ℚ) (k : ℤ) (hx : x * 10 ^ n = (k : ℚ)) :
    roundTo n x = x := by
  unfold roundTo
  rw [hx, rhe_intCast, ← hx]
  have h10 : (10 : ℚ) ^ n ≠ 0 := by positivity
  field_simp

theorem abs_roundTo_sub (n : ℕ) (x : ℚ) :
    |roundTo n x - x| ≤ 1 / (2 * 10 ^ n) := by
  unfold roundTo
  have h10 : (0 : ℚ) < 10 ^ n := by positivity
  have key : (rhe (x * 10 ^ n) : ℚ) / 10 ^ n - x =
      ((rhe (x * 10 ^ n) : ℚ) - x * 10 ^ n) / 10 ^ n := by
    field_simp
    ring
  rw [key, abs_div, abs_of_pos h10, div_le_div_iff₀ h10 (by positivity)]
  have := abs_rhe_sub (x * 10 ^ n)
  nlinarith [abs_nonneg ((rhe (x * 10 ^ n) : ℚ) - x * 10 ^ n)]

theorem roundTo_zero (n : ℕ) : roundTo n 0 = 0 :=
  roundTo_eq_self n 0 0 (by norm_num)

/-! ### Allocation-loop step lemmas -/

theorem allocLoop_nonpos (ls : List ProcRec) (need : ℚ) (h : need ≤ 0) :
    allocLoop ls need = ([], need) := by
  cases ls with
  | nil => rfl
  | cons l tl => rw [allocLoop, if_pos h]

theorem allocLoop_cons_skip (l : ProcRec) (ls : List ProcRec) (need : ℚ)
    (hn : 0 < need) (ha : l.avail ≤ 0) :
    allocLoop (l :: ls) need = allocLoop ls need := by
  rw [allocLoop, if_neg (not_le.mpr hn)]
  have : ¬ 0 < min l.avail need := not_lt.mpr (le_trans (min_le_left _ _) ha)
  simp only [this, if_false]

theorem allocLoop_cons_take (l : ProcRec) (ls : List ProcRec) (need : ℚ)
    (ha : 0 < l.avail) (hle : l.avail ≤ need) :
    allocLoop (l :: ls) need =
      (mkEntry l l.avail :: (allocLoop ls (need - l.avail)).1,
       (allocLoop ls (need - l.avail)).2) := by
  have hn : 0 < need := lt_of_lt_of_le ha hle
  have hmin : min l.avail need = l.avail := min_eq_left hle
  rw [allocLoop, if_neg (not_le.mpr hn)]
  simp only [hmin, if_pos ha]

theorem allocLoop_cons_final (l : ProcRec) (ls : List ProcRec) (need : ℚ)
    (hn : 0 < need) (hge : need ≤ l.avail) :
    allocLoop (l :: ls) need = ([mkEntry l need], 0) := by
  have hmin : min l.avail need = need := min_eq_right hge
  rw [allocLoop, if_neg (not_le.mpr hn)]
  simp only [hmin, if_pos hn, sub_self, allocLoop_nonpos ls 0 le_rfl]

/-! ### Permutation facts: the FIFO sequence is a permutation of the input -/

open List

theorem insertLe_perm (le : α → α → Bool) (a : α) (l : List α) :
    insertLe le a l ~ a :: l := by
  induction l with
  | nil => rfl
  | cons b tl ih =>
      rw [insertLe]
      split_ifs
      · rfl
      · exact (ih.cons b).trans (List.Perm.swap a b tl)

theorem sortLe_perm (le : α → α → Bool) (l : List α) : sortLe le l ~ l := by
  induction l with
  | nil => rfl
  | cons a tl ih => exact (insertLe_perm le a (sortLe le tl)).trans (ih.cons a)

theorem catLists_perm_congr {l₁ l₂ : List (List α)} (h : l₁ ~ l₂) :
    catLists l₁ ~ catLists l₂ := by
  induction h with
  | nil => rfl
  | cons x _ ih => exact ih.append_left x
  | swap x y tl =>
      calc catLists (y :: x :: tl) = (y ++ x) ++ catLists tl := by
            simp [catLists, List.append_assoc]
        _ ~ (x ++ y) ++ catLists tl := (List.perm_append_comm).append_right _
        _ = catLists (x :: y :: tl) := by simp [catLists, List.append_assoc]
  | trans _ _ ih1 ih2 => exact ih1.trans ih2

theorem catLists_addLot_perm (gs : List (Option String × List ProcRec))
    (l : ProcRec) :
    catLists ((addLot gs l).map Prod.snd) ~
      catLists (gs.map Prod.snd) ++ [l] := by
  induction gs with
  | nil => simp [addLot, catLists]
  | cons g tl ih =>
      obtain ⟨k, ls⟩ := g
      rw [addLot]
      split_ifs
      · simp only [List.map_cons, catLists, List.append_assoc]
        exact List.Perm.append_left ls List.perm_append_comm
      · simp only [List.map_cons, catLists, List.append_assoc]
        exact List.Perm.append_left ls ih

theorem groupByPO_foldl_perm (ps : List ProcRec)
    (gs : List (Option String × List ProcRec)) :
    catLists ((ps.foldl addLot gs).map Prod.snd) ~
      catLists (gs.map Prod.snd) ++ ps := by
  induction ps generalizing gs with
  | nil => simp
  | cons p tl ih =>
      rw [List.foldl_cons]
      refine (ih (addLot gs p)).trans ?_
      refine ((catLists_addLot_perm gs p).append_right tl).trans ?_
      simp [List.append_assoc]

theorem groupByPO_flat_perm (ps : List ProcRec) :
    catLists ((groupByPO ps).map Prod.snd) ~ ps := by
  have h := groupByPO_foldl_perm ps []
  simpa [catLists] using h

theorem sortGroups_flat_perm (gs : List (Option String × List ProcRec)) :
    catLists ((gs.map fun g => (g.1, sortLe lotDateLe g.2)).map Prod.snd) ~
      catLists (gs.map Prod.snd) := by
  induction gs with
  | nil => rfl
  | cons g tl ih =>
      simp only [List.map_cons, catLists]
      exact (sortLe_perm lotDateLe g.2).append ih

theorem orderedLots_perm (ps : List ProcRec) : orderedLots ps ~ ps := by
  unfold orderedLots
  refine (catLists_perm_congr ((sortLe_perm groupLe _).map Prod.snd)).trans ?_
  exact (sortGroups_flat_perm (groupByPO ps)).trans (groupByPO_flat_perm ps)

/-! ### The parse-and-tag phase -/

theorem toProc_stepRec_of_ok (r : LotDict) (d : PDate)
    (h : to_date r.posting = some d) :
    toProc (stepRec r) = some ⟨r.lot_no, r.avail, d, get_PO r.lot_no⟩ := by
  rw [stepRec, h]
  rfl

theorem toProc_stepRec_of_bad (r : LotDict) (h : to_date r.posting = none) :
    toProc (stepRec r) = none := by
  rw [stepRec, h]
  cases hp : r.posting with
  | dt d => rw [hp] at h; simp [to_date] at h
  | str s => simp [toProc, hp]

theorem guard_iff (rs : List LotDict) :
    ((processRecords rs).all fun r => (toProc r).isSome) = true ↔
      ∀ r ∈ rs, (to_date r.posting).isSome := by
  rw [processRecords, List.all_map, List.all_eq_true]
  constructor
  · intro h r hr
    have := h r hr
    cases hd : to_date r.posting with
    | some d => rfl
    | none =>
        rw [Function.comp_apply, toProc_stepRec_of_bad r hd] at this
        simp at this
  · intro h r hr
    cases hd : to_date r.posting with
    | some d => rw [Function.comp_apply, toProc_stepRec_of_ok r d hd]; rfl
    | none => have := h r hr; rw [hd] at this; simp at this

theorem procs_proj (rs : List LotDict)
    (h : ∀ r ∈ rs, (to_date r.posting).isSome) :
    ((processRecords rs).filterMap toProc).map projP = rs.map projR := by
  induction rs with
  | nil => rfl
  | cons r tl ih =>
      have hr := h r (List.mem_cons_self r tl)
      obtain ⟨d, hd⟩ := Option.isSome_iff_exists.mp hr
      rw [processRecords] at ih ⊢
      rw [List.map_cons, List.filterMap_cons, toProc_stepRec_of_ok r d hd]
      simp only [List.map_cons]
      rw [ih fun x hx => h x (List.mem_cons_of_mem r hx)]
      rfl

/-! ### Loop invariants -/

theorem posSum_nonneg (ls : List ProcRec) : 0 ≤ posSum ls := by
  refine List.sum_nonneg ?_
  intro x hx
  obtain ⟨l, hl, rfl⟩ := List.mem_map.mp hx
  have := List.of_mem_filter hl
  simp only [decide_eq_true_eq] at this
  exact le_of_lt this

theorem posSum_cons_pos (l : ProcRec) (ls : List ProcRec) (h : 0 < l.avail) :
    posSum (l :: ls) = l.avail + posSum ls := by
  unfold posSum
  rw [List.filter_cons, if_pos (by simpa using h)]
  simp

theorem posSum_cons_nonpos (l : ProcRec) (ls : List ProcRec)
    (h : ¬ 0 < l.avail) :
    posSum (l :: ls) = posSum ls := by
  unfold posSum
  rw [List.filter_cons, if_neg (by simpa using h)]

theorem sum_le_posSum (ls : List ProcRec) :
    ((ls.map fun l => l.avail).sum) ≤ posSum ls := by
  induction ls with
  | nil => simp [posSum]
  | cons l tl ih =>
      by_cases h : 0 < l.avail
      · rw [posSum_cons_pos l tl h]
        simp only [List.map_cons, List.sum_cons]
        linarith
      · rw [posSum_cons_nonpos l tl h]
        simp only [List.map_cons, List.sum_cons]
        push_neg at h
        linarith

theorem allocLoop_fin_le (ls : List ProcRec) (need : ℚ) :
    (allocLoop ls need).2 ≤ need := by
  induction ls generalizing need with
  | nil => simp [allocLoop]
  | cons l tl ih =>
      by_cases hz : need ≤ 0
      · rw [allocLoop_nonpos _ need hz]
      · push_neg at hz
        by_cases hpos : 0 < l.avail
        · by_cases hge : need ≤ l.avail
          · rw [allocLoop_cons_final l tl need hz hge]
            exact le_of_lt hz
          · push_neg at hge
            rw [allocLoop_cons_take l tl need hpos (le_of_lt hge)]
            have := ih (need - l.avail)
            simp only []
            linarith
        · rw [allocLoop_cons_skip l tl need hz (not_lt.mp hpos)]
          exact ih need

theorem allocLoop_fin_nonneg (ls : List ProcRec) (need : ℚ) (h : 0 ≤ need) :
    0 ≤ (allocLoop ls need).2 := by
  induction ls generalizing need with
  | nil => simpa [allocLoop]
  | cons l tl ih =>
      by_cases hz : need ≤ 0
      · rw [allocLoop_nonpos _ need hz]
        exact h
      · push_neg at hz
        by_cases hpos : 0 < l.avail
        · by_cases hge : need ≤ l.avail
          · rw [allocLoop_cons_final l tl need hz hge]
          · push_neg at hge
            rw [allocLoop_cons_take l tl need hpos (le_of_lt hge)]
            exact ih (need - l.avail) (by linarith)
        · rw [allocLoop_cons_skip l tl need hz (not_lt.mp hpos)]
          exact ih need h

theorem allocLoop_suff (ls : List ProcRec) (need : ℚ)
    (hc : ∀ l ∈ ls, isCent l.avail) (h0 : 0 ≤ need)
    (hs : need ≤ posSum ls) :
    (allocLoop ls need).2 = 0 ∧
      |selQtySum (allocLoop ls need).1 - need| ≤ 1 / 20000 := by
  induction ls generalizing need with
  | nil =>
      have : need = 0 := le_antisymm (by simpa [posSum] using hs) h0
      subst this
      simp [allocLoop, selQtySum]
  | cons l tl ih =>
      by_cases hz : need ≤ 0
      · have : need = 0 := le_antisymm hz h0
        subst this
        rw [allocLoop_nonpos _ 0 le_rfl]
        simp [selQtySum]
      · push_neg at hz
        by_cases hge : need ≤ l.avail
        · rw [allocLoop_cons_final l tl need hz hge]
          refine ⟨rfl, ?_⟩
          simp only [selQtySum, List.map_cons, List.map_nil, List.sum_cons,
            List.sum_nil, add_zero, mkEntry]
          have := abs_roundTo_sub 4 need
          calc |roundTo 4 need - need| ≤ 1 / (2 * 10 ^ 4) := this
            _ = 1 / 20000 := by norm_num
        · push_neg at hge
          by_cases hpos : 0 < l.avail
          · rw [allocLoop_cons_take l tl need hpos (le_of_lt hge)]
            have hps := posSum_cons_pos l tl hpos
            have h0' : 0 ≤ need - l.avail := by linarith
            have hs' : need - l.avail ≤ posSum tl := by
              rw [hps] at hs; linarith
            obtain ⟨hfin, habs⟩ :=
              ih (need - l.avail) (fun x hx => hc x (List.mem_cons_of_mem l hx)) h0' hs'
            refine ⟨hfin, ?_⟩
            simp only [selQtySum, List.map_cons, List.sum_cons, mkEntry]
            obtain ⟨k, hk⟩ := hc l (List.mem_cons_self l tl)
            have hr : roundTo 4 l.avail = l.avail := by
              refine roundTo_eq_self 4 l.avail (k * 100) ?_
              rw [hk]
              push_cast
              ring
            rw [hr]
            rw [selQtySum] at habs
            have heq2 : l.avail +
                (List.map (fun s => s.qty) (allocLoop tl (need - l.avail)).1).sum - need =
                (List.map (fun s => s.qty) (allocLoop tl (need - l.avail)).1).sum -
                  (need - l.avail) := by
              ring
            rw [heq2]
            exact habs
          · rw [allocLoop_cons_skip l tl need hz (not_lt.mp hpos)]
            have hps := posSum_cons_nonpos l tl hpos
            rw [hps] at hs
            exact ih need (fun x hx => hc x (List.mem_cons_of_mem l hx)) h0 hs

theorem allocLoop_insuff (ls : List ProcRec) (need : ℚ)
    (hs : posSum ls < need) :
    (allocLoop ls need).1 =
      (ls.filter fun l => decide (0 < l.avail)).map
        (fun l => mkEntry l l.avail) ∧
      (allocLoop ls need).2 = need - posSum ls := by
  induction ls generalizing need with
  | nil => simp [allocLoop, posSum]
  | cons l tl ih =>
      have hn : 0 < need := lt_of_le_of_lt (posSum_nonneg (l :: tl)) hs
      by_cases hpos : 0 < l.avail
      · have hps := posSum_cons_pos l tl hpos
        have hlt : l.avail < need := by
          have := posSum_nonneg tl
          rw [hps] at hs
          linarith
        rw [allocLoop_cons_take l tl need hpos (le_of_lt hlt)]
        have hs' : posSum tl < need - l.avail := by rw [hps] at hs; linarith
        obtain ⟨h1, h2⟩ := ih (need - l.avail) hs'
        constructor
        · rw [List.filter_cons, if_pos (by simpa using hpos), List.map_cons, h1]
        · rw [h2, hps]
          ring
      · have hps := posSum_cons_nonpos l tl hpos
        rw [allocLoop_cons_skip l tl need hn (not_lt.mp hpos)]
        rw [hps] at hs
        obtain ⟨h1, h2⟩ := ih need hs
        constructor
        · rw [List.filter_cons, if_neg (by simpa using hpos), h1]
        · rw [h2, hps]

theorem allocLoop_mem (ls : List ProcRec) (need : ℚ) (s : SelEntry)
    (hmem : s ∈ (allocLoop ls need).1) :
    ∃ l ∈ ls, 0 < l.avail ∧ s.lot_no = l.lot_no := by
  induction ls generalizing need with
  | nil => simp [allocLoop] at hmem
  | cons l tl ih =>
      by_cases hz : need ≤ 0
      · rw [allocLoop_nonpos _ need hz] at hmem
        simp at hmem
      · push_neg at hz
        by_cases hpos : 0 < l.avail
        · by_cases hge : need ≤ l.avail
          · rw [allocLoop_cons_final l tl need hz hge] at hmem
            simp only [List.mem_singleton] at hmem
            exact ⟨l, List.mem_cons_self l tl, hpos, by rw [hmem]; rfl⟩
          · push_neg at hge
            rw [allocLoop_cons_take l tl need hpos (le_of_lt hge)] at hmem
            simp only [List.mem_cons] at hmem
            rcases hmem with heq | htail
            · exact ⟨l, List.mem_cons_self l tl, hpos, by rw [heq]; rfl⟩
            · obtain ⟨x, hx, hxa, hxn⟩ := ih (need - l.avail) htail
              exact ⟨x, List.mem_cons_of_mem l hx, hxa, hxn⟩
        · rw [allocLoop_cons_skip l tl need hz (not_lt.mp hpos)] at hmem
          obtain ⟨x, hx, hxa, hxn⟩ := ih need hmem
          exact ⟨x, List.mem_cons_of_mem l hx, hxa, hxn⟩

/-! ### Transfer between raw records and processed lots -/

theorem posSum_eq_pairPosSum (ls : List ProcRec) :
    posSum ls = pairPosSum (ls.map projP) := by
  unfold posSum pairPosSum
  rw [List.filter_map, List.map_map]
  rfl

theorem posSumRaw_eq_pairPosSum (rs : List LotDict) :
    posSumRaw rs = pairPosSum (rs.map projR) := by
  unfold posSumRaw pairPosSum
  rw [List.filter_map, List.map_map]
  rfl

theorem posSum_perm {l₁ l₂ : List ProcRec} (h : l₁ ~ l₂) :
    posSum l₁ = posSum l₂ :=
  List.Perm.sum_eq ((h.filter _).map _)

theorem mem_procs_pair (rs : List LotDict)
    (hok : ∀ r ∈ rs, (to_date r.posting).isSome) (l : ProcRec)
    (hl : l ∈ (processRecords rs).filterMap toProc) :
    ∃ r ∈ rs, l.lot_no = r.lot_no ∧ l.avail = r.avail := by
  have hmem : projP l ∈ ((processRecords rs).filterMap toProc).map projP :=
    List.mem_map_of_mem projP hl
  rw [procs_proj rs hok] at hmem
  obtain ⟨r, hr, he⟩ := List.mem_map.mp hmem
  have h1 : r.lot_no = l.lot_no := congrArg Prod.fst he
  have h2 : r.avail = l.avail := congrArg Prod.snd he
  exact ⟨r, hr, h1.symm, h2.symm⟩

theorem procs_avail_sum (rs : List LotDict)
    (hok : ∀ r ∈ rs, (to_date r.posting).isSome) :
    (((processRecords rs).filterMap toProc).map fun l => l.avail).sum =
      ((rs.map fun r => r.avail).sum) := by
  have h1 : ((processRecords rs).filterMap toProc).map (fun l => l.avail) =
      (((processRecords rs).filterMap toProc).map projP).map Prod.snd := by
    rw [List.map_map]
    rfl
  have h2 : rs.map (fun r => r.avail) = (rs.map projR).map Prod.snd := by
    rw [List.map_map]
    rfl
  rw [h1, h2, procs_proj rs hok]

theorem procs_posSum (rs : List LotDict)
    (hok : ∀ r ∈ rs, (to_date r.posting).isSome) :
    posSum ((processRecords rs).filterMap toProc) = posSumRaw rs := by
  rw [posSum_eq_pairPosSum, posSumRaw_eq_pairPosSum, procs_proj rs hok]

theorem procs_filter_pos (rs : List LotDict)
    (hok : ∀ r ∈ rs, (to_date r.posting).isSome) :
    ((((processRecords rs).filterMap toProc).filter
        fun l => decide (0 < l.avail)).map projP) =
      ((rs.filter fun r => decide (0 < r.avail)).map projR) := by
  have h := procs_proj rs hok
  have h1 := congrArg (List.filter fun q : String × ℚ => decide (0 < q.2)) h
  rw [List.filter_map, List.filter_map] at h1
  exact h1

theorem allocateFifo_ok (inp : FifoInput)
    (hok : ∀ r ∈ inp.records, (to_date r.posting).isSome) :
    allocateFifo inp =
      .ok ⟨inp.item_no, inp.line_no, inp.location_code, inp.qty,
        (allocLoop (orderedLots ((processRecords inp.records).filterMap toProc))
          inp.qty).1,
        roundTo 4 (allocLoop
          (orderedLots ((processRecords inp.records).filterMap toProc))
          inp.qty).2⟩ := by
  unfold allocateFifo
  rw [if_pos ((guard_iff inp.records).mpr hok)]

/-! ### Claim theorems -/

/-- C1: for every allocation input with non-empty lots, positive required
quantity, and total available quantity at least the required quantity,
`allocate_item_lots_fifo` returns a result with `Unfulfilled_Qty = 0` and the
sum of `Selected_Qty` within 1e-4 of the required quantity. Inputs are
well-formed: posting dates parse, and each `Available_Quantity` is an exact
2-decimal value as `group_lot_records`'s `.round(2)` guarantees. -/
theorem claim1_sufficient_stock (inp : FifoInput)
    (hne : inp.records ≠ [])
    (hq : 0 < inp.qty)
    (hcent : ∀ r ∈ inp.records, isCent r.avail)
    (hsum : inp.qty ≤ (inp.records.map fun r => r.avail).sum)
    (hok : ∀ r ∈ inp.records, (to_date r.posting).isSome) :
    ∃ out, allocateFifo inp = .ok out ∧ out.unfulfilled = 0 ∧
      |selQtySum out.selected - inp.qty| ≤ 1 / 10000 := by
  rw [allocateFifo_ok inp hok]
  set procs := (processRecords inp.records).filterMap toProc with hprocs
  have hperm := orderedLots_perm procs
  have hcentO : ∀ l ∈ orderedLots procs, isCent l.avail := by
    intro l hl
    obtain ⟨r, hr, _, ha⟩ := mem_procs_pair inp.records hok l (hperm.subset hl)
    obtain ⟨k, hk⟩ := hcent r hr
    exact ⟨k, ha.trans hk⟩
  have hsumO : inp.qty ≤ posSum (orderedLots procs) := by
    rw [posSum_perm hperm]
    have h1 := procs_avail_sum inp.records hok
    have h2 := sum_le_posSum procs
    rw [← hprocs] at h1
    linarith
  obtain ⟨hfin, habs⟩ :=
    allocLoop_suff (orderedLots procs) inp.qty hcentO (le_of_lt hq) hsumO
  refine ⟨_, rfl, ?_, ?_⟩
  · show roundTo 4 (allocLoop (orderedLots procs) inp.qty).2 = 0
    rw [hfin, roundTo_zero]
  · show |selQtySum (allocLoop (orderedLots procs) inp.qty).1 - inp.qty| ≤ 1 / 10000
    calc |selQtySum (allocLoop (orderedLots procs) inp.qty).1 - inp.qty|
        ≤ 1 / 20000 := habs
      _ ≤ 1 / 10000 := by norm_num

/-- C1 witness: a concrete run with one lot of 5 available and 3 required. -/
theorem claim1_witness :
    ∃ out, allocateFifo exC1 = .ok out ∧ out.unfulfilled = 0 ∧
      |selQtySum out.selected - exC1.qty| ≤ 1 / 10000 :=
  claim1_sufficient_stock exC1
    (by simp [exC1])
    (by norm_num [exC1])
    (by
      intro r hr
      simp only [exC1, List.mem_singleton] at hr
      subst hr
      exact ⟨500, by norm_num⟩)
    (by simp [exC1]; norm_num)
    (by
      intro r hr
      simp only [exC1, List.mem_singleton] at hr
      subst hr
      rfl)

/-- C3: the FIFO consumption order groups lots by PO token, sorts within a
group by posting date, orders groups by earliest posting date, and flattens;
on the specification's example (A#PO1-1 dated 2024-03-01, B#PO2-1 dated
2024-01-01, C#PO1-2 dated 2024-02-01, required 12) the allocation is
B fully (5), C fully (5), A partially (2), with no unfulfilled quantity. -/
theorem claim3_fifo_order : allocateFifo exC3 = .ok outC3 := by
  have e : allocateFifo exC3 =
      .ok ⟨"ITEM", "1", "LOC", 12, (allocLoop [pC3B, pC3C, pC3A] 12).1,
        roundTo 4 (allocLoop [pC3B, pC3C, pC3A] 12).2⟩ := rfl
  rw [e,
    allocLoop_cons_take pC3B [pC3C, pC3A] 12 (by norm_num [pC3B])
      (by norm_num [pC3B]),
    allocLoop_cons_take pC3C [pC3A] _ (by norm_num [pC3C])
      (by norm_num [pC3B, pC3C]),
    allocLoop_cons_final pC3A [] _ (by norm_num [pC3B, pC3C, pC3A])
      (by norm_num [pC3B, pC3C, pC3A])]
  have r5 : roundTo 4 (5 : ℚ) = 5 := roundTo_eq_self 4 5 50000 (by norm_num)
  norm_num [pC3A, pC3B, pC3C, mkEntry, outC3, roundTo_zero, r5]
  exact ⟨rfl, rfl, rfl, roundTo_eq_self 4 2 20000 (by norm_num)⟩

/-- C4: lots with non-positive availability are never selected — every
selected entry stems from an input lot with positive availability — and
walking past such a lot neither selects it nor changes the remaining need,
which never increases during the walk. -/
theorem claim4_nonpositive_lots (inp : FifoInput)
    (hq : 0 < inp.qty)
    (hok : ∀ r ∈ inp.records, (to_date r.posting).isSome) :
    (∃ out, allocateFifo inp = .ok out ∧
        ∀ s ∈ out.selected, ∃ r ∈ inp.records, 0 < r.avail ∧
          s.lot_no = r.lot_no) ∧
      (∀ (l : ProcRec) (ls : List ProcRec) (need : ℚ), l.avail ≤ 0 →
        0 < need → allocLoop (l :: ls) need = allocLoop ls need) ∧
      (∀ (ls : List ProcRec) (need : ℚ), (allocLoop ls need).2 ≤ need) := by
  refine ⟨?_, fun l ls need ha hn => allocLoop_cons_skip l ls need hn ha,
    fun ls need => allocLoop_fin_le ls need⟩
  rw [allocateFifo_ok inp hok]
  refine ⟨_, rfl, ?_⟩
  intro s hs
  set procs := (processRecords inp.records).filterMap toProc with hprocs
  have hperm := orderedLots_perm procs
  obtain ⟨l, hl, hla, hln⟩ := allocLoop_mem (orderedLots procs) inp.qty s hs
  obtain ⟨r, hr, hn, ha⟩ := mem_procs_pair inp.records hok l (hperm.subset hl)
  exact ⟨r, hr, ha ▸ hla, hln.trans hn⟩

/-- C4 witness: the mixed input `exC4` (availabilities −2 and 9, required 4)
run through the theorem. -/
theorem claim4_witness :
    (∃ out, allocateFifo exC4 = .ok out ∧
        ∀ s ∈ out.selected, ∃ r ∈ exC4.records, 0 < r.avail ∧
          s.lot_no = r.lot_no) ∧
      (∀ (l : ProcRec) (ls : List ProcRec) (need : ℚ), l.avail ≤ 0 →
        0 < need → allocLoop (l :: ls) need = allocLoop ls need) ∧
      (∀ (ls : List ProcRec) (need : ℚ), (allocLoop ls need).2 ≤ need) :=
  claim4_nonpositive_lots exC4
    (by norm_num [exC4])
    (by
      intro r hr
      simp only [exC4, List.mem_cons, List.mem_singleton] at hr
      rcases hr with h | h | h
      · subst h; rfl
      · subst h; rfl
      · cases h)

/-- C2 counterexample: on `exC2` (availabilities 5 and −5, required 1) the
total availability 0 is below the required 1, yet the positive lot is NOT
fully consumed (only 1 of its 5 is selected) and `Unfulfilled_Qty` is 0, not
`required − Σ(available over positive lots) = −4`: negative-availability
lots are skipped, not netted, so the claim as stated fails. -/
theorem claim2_counterexample :
    ((exC2.records.map fun r => r.avail).sum < exC2.qty) ∧
      0 < exC2.qty ∧
      allocateFifo exC2 = .ok outC2 ∧
      outC2.unfulfilled ≠ exC2.qty - posSumRaw exC2.records ∧
      ¬ ∃ s ∈ outC2.selected, s.qty = (5 : ℚ) := by
  have hps : posSumRaw exC2.records = 5 := by
    rw [exC2, posSumRaw]
    rw [List.filter_cons, List.filter_cons, List.filter_nil]
    norm_num
  refine ⟨?_, ?_, ?_, ?_, ?_⟩
  · simp [exC2]
  · norm_num [exC2]
  · have e : allocateFifo exC2 =
        .ok ⟨"I-100", "10000", "WH", 1, (allocLoop [pC2A, pC2B] 1).1,
          roundTo 4 (allocLoop [pC2A, pC2B] 1).2⟩ := rfl
    rw [e, allocLoop_cons_final pC2A [pC2B] 1 (by norm_num)
      (by norm_num [pC2A])]
    have r1 : roundTo 4 (1 : ℚ) = 1 := roundTo_eq_self 4 1 10000 (by norm_num)
    norm_num [pC2A, mkEntry, outC2, roundTo_zero, r1]
    rfl
  · rw [hps]
    norm_num [outC2, exC2]
  · rintro ⟨s, hs, hq5⟩
    simp only [outC2, List.mem_singleton] at hs
    rw [hs] at hq5
    norm_num at hq5

/-- C2 amended: when the sum of available quantity over the
positive-availability lots is below the required quantity, every positive
lot is fully consumed (the multiset of (lot number, selected quantity) pairs
is exactly the positive lots with their availabilities) and
`Unfulfilled_Qty = round(required − Σ(available over positive lots), 4)`;
with empty lots this gives an empty selection and
`Unfulfilled_Qty = round(required, 4)`. -/
theorem claim2_amended_insufficient (inp : FifoInput)
    (hq : 0 < inp.qty)
    (hcent : ∀ r ∈ inp.records, isCent r.avail)
    (hok : ∀ r ∈ inp.records, (to_date r.posting).isSome)
    (hs : posSumRaw inp.records < inp.qty) :
    ∃ out, allocateFifo inp = .ok out ∧
      out.selected.map (fun s => (s.lot_no, s.qty)) ~
        (inp.records.filter fun r => decide (0 < r.avail)).map projR ∧
      out.unfulfilled = roundTo 4 (inp.qty - posSumRaw inp.records) := by
  rw [allocateFifo_ok inp hok]
  set procs := (processRecords inp.records).filterMap toProc with hprocs
  have hperm := orderedLots_perm procs
  have hsO : posSum (orderedLots procs) < inp.qty := by
    rw [posSum_perm hperm, hprocs, procs_posSum inp.records hok]
    exact hs
  obtain ⟨h1, h2⟩ := allocLoop_insuff (orderedLots procs) inp.qty hsO
  refine ⟨_, rfl, ?_, ?_⟩
  · show (allocLoop (orderedLots procs) inp.qty).1.map
        (fun s => (s.lot_no, s.qty)) ~ _
    rw [h1, List.map_map]
    have hmapeq : (((orderedLots procs).filter
          fun l => decide (0 < l.avail)).map
            ((fun s : SelEntry => (s.lot_no, s.qty)) ∘
              fun l => mkEntry l l.avail)) =
        (((orderedLots procs).filter
          fun l => decide (0 < l.avail)).map projP) := by
      refine List.map_congr_left ?_
      intro l hl
      have hlm : l ∈ orderedLots procs := List.mem_of_mem_filter hl
      obtain ⟨r, hr, _, ha⟩ :=
        mem_procs_pair inp.records hok l (hperm.subset hlm)
      obtain ⟨k, hk⟩ := hcent r hr
      have hround : roundTo 4 l.avail = l.avail := by
        refine roundTo_eq_self 4 l.avail (k * 100) ?_
        rw [ha, hk]
        push_cast
        ring
      simp [mkEntry, projP, hround]
    rw [hmapeq]
    refine ((hperm.filter _).map projP).trans ?_
    rw [hprocs, procs_filter_pos inp.records hok]
  · show roundTo 4 (allocLoop (orderedLots procs) inp.qty).2 = _
    rw [h2, posSum_perm hperm, hprocs, procs_posSum inp.records hok]

/-- C2 witness: required 7 against a single lot of 5 — the lot is fully
consumed and 2 remains unfulfilled. -/
theorem claim2_witness :
    ∃ out, allocateFifo exC2w = .ok out ∧
      out.selected.map (fun s => (s.lot_no, s.qty)) ~
        (exC2w.records.filter fun r => decide (0 < r.avail)).map projR ∧
      out.unfulfilled = roundTo 4 (exC2w.qty - posSumRaw exC2w.records) :=
  claim2_amended_insufficient exC2w
    (by norm_num [exC2w])
    (by
      intro r hr
      simp only [exC2w, List.mem_singleton] at hr
      subst hr
      exact ⟨500, by norm_num⟩)
    (by
      intro r hr
      simp only [exC2w, List.mem_singleton] at hr
      subst hr
      rfl)
    (by
      rw [exC2w, posSumRaw]
      rw [List.filter_cons, List.filter_nil]
      norm_num)

/-- C5 counterexample: `allocate_item_lots_fifo` performs no validation of
`required_quantity`: for required quantity 0 it returns a normal result (an
empty selection, zero unfulfilled) instead of raising a validation error. -/
theorem claim5_counterexample :
    exC5.qty ≤ 0 ∧ allocateFifo exC5 = .ok outC5 := by
  constructor
  · norm_num [exC5]
  · have e : allocateFifo exC5 =
        .ok ⟨"I-100", "10000", "WH", 0, [], roundTo 4 0⟩ := rfl
    rw [e, roundTo_zero]
    rfl

/-- C5 amended: `LotSelector.allocate` raises `ValueError` on
`required_qty ≤ 0`, but the PO-grouped FIFO allocator
`allocate_item_lots_fifo` does not validate: on well-formed records it
returns a normal result with an empty selection and
`Unfulfilled_Qty = round(required_quantity, 4)`. -/
theorem claim5_amended (q : ℚ) (hq : q ≤ 0) :
    (∀ st, selAllocate st q = .error "ValueError") ∧
      (∀ inp : FifoInput, inp.qty = q →
        (∀ r ∈ inp.records, (to_date r.posting).isSome) →
        allocateFifo inp = .ok ⟨inp.item_no, inp.line_no, inp.location_code,
          q, [], roundTo 4 q⟩) := by
  constructor
  · intro st
    rw [selAllocate, if_pos hq]
  · intro inp he hok
    rw [allocateFifo_ok inp hok, he, allocLoop_nonpos _ q hq]

/-- C5 witness: the amended theorem applied at required quantity 0 and the
empty-record input `exC5`. -/
theorem claim5_witness :
    (∀ st, selAllocate st 0 = .error "ValueError") ∧
      allocateFifo exC5 = .ok outC5 := by
  obtain ⟨h1, h2⟩ := claim5_amended 0 le_rfl
  refine ⟨h1, ?_⟩
  have h3 := h2 exC5 rfl (by intro r hr; cases hr)
  rw [h3, roundTo_zero]
  rfl

/-- The parse-and-tag pass keeps `Lot_No` and `Available_Quantity`. -/
theorem projR_stepRec (r : LotDict) : projR (stepRec r) = projR r := by
  unfold stepRec
  cases h : to_date r.posting <;> simp [projR]

/-- Re-running the parse-and-tag pass on already-processed records is the
identity on them: `to_date` passes `date` objects through and the `PO` key is
recomputed to the same value. -/
theorem stepRec_idem (r : LotDict) (h : (to_date r.posting).isSome) :
    stepRec (stepRec r) = stepRec r := by
  obtain ⟨d, hd⟩ := Option.isSome_iff_exists.mp h
  have hdt : to_date (DateVal.dt d) = some d := rfl
  simp [stepRec, hd, hdt]

theorem processRecords_idem (rs : List LotDict)
    (hok : ∀ r ∈ rs, (to_date r.posting).isSome) :
    processRecords (processRecords rs) = processRecords rs := by
  unfold processRecords
  rw [List.map_map]
  exact List.map_congr_left fun r hr => stepRec_idem r (hok r hr)

/-- C6: aggregation groups raw ledger rows by lot number; each aggregated lot
carries the group's summed remaining quantity, its maximum posting date, the
requested quantity looked up with default 0, and the 2-decimal rounding of
their sum. -/
theorem claim6_aggregation (records : List RawLedger)
    (req : List (String × ℚ)) (g : AggLot) (hg : g ∈ aggregate records req) :
    g.remaining =
        ((records.filter fun r => r.lot_no = g.lot_no).map
          fun r => r.remaining).sum ∧
      g.posting =
        maxString ((records.filter fun r => r.lot_no = g.lot_no).map
          fun r => r.posting) ∧
      g.requested = lookupQty req g.lot_no ∧
      g.available = roundTo 2 (g.remaining + g.requested) := by
  unfold aggregate at hg
  obtain ⟨k, hk, rfl⟩ := List.mem_map.mp hg
  exact ⟨rfl, rfl, rfl, rfl⟩

/-- C6 witness: the round-trip example — two rows for one lot with remaining
quantities 3 and 4 aggregate to a single lot with remaining 7 and the later
posting date. -/
theorem claim6_witness :
    aggC6 ∈ aggregate exC6recs [] ∧
      aggC6.remaining = 7 ∧ aggC6.posting = "2024-02-01" ∧
      (aggC6.remaining =
          ((exC6recs.filter fun r => r.lot_no = aggC6.lot_no).map
            fun r => r.remaining).sum ∧
        aggC6.posting =
          maxString ((exC6recs.filter fun r => r.lot_no = aggC6.lot_no).map
            fun r => r.posting) ∧
        aggC6.requested = lookupQty [] aggC6.lot_no ∧
        aggC6.available = roundTo 2 (aggC6.remaining + aggC6.requested)) := by
  have e : aggregate exC6recs [] =
      [⟨"LOT-7", (3 : ℚ) + (4 + 0), "2024-02-01", 0,
        roundTo 2 ((3 : ℚ) + (4 + 0) + 0)⟩] := rfl
  have h7 : (3 : ℚ) + (4 + 0) = 7 := by norm_num
  have hr7 : roundTo 2 ((3 : ℚ) + (4 + 0) + 0) = 7 := by
    rw [h7, add_zero]
    exact roundTo_eq_self 2 7 700 (by norm_num)
  have e2 : aggregate exC6recs [] = [aggC6] := by
    rw [e, hr7, h7]
    rfl
  have hmem : aggC6 ∈ aggregate exC6recs [] := by
    rw [e2]
    exact List.mem_singleton.mpr rfl
  exact ⟨hmem, rfl, rfl, claim6_aggregation exC6recs [] aggC6 hmem⟩

/-- C7 counterexample: `LotSelector.allocate` is not pure — `selected_lots`
accumulates on the instance, so calling `allocate(5)` twice on the same
selector returns different lists (one entry, then two). -/
theorem claim7_counterexample :
    selInit exC7lots = .ok exC7st ∧
      ∃ r1 st1 r2 st2, selAllocate exC7st 5 = .ok (r1, st1) ∧
        selAllocate st1 5 = .ok (r2, st2) ∧ r1 ≠ r2 := by
  have hloop : selLoop exC7st.available 5 = [selRecC7] := by
    show selLoop [⟨"L001", 100, ⟨2025, 1, 10⟩⟩] 5 = [selRecC7]
    rw [selLoop, if_neg (by norm_num)]
    have hmin : min (100 : ℚ) 5 = 5 := min_eq_right (by norm_num)
    simp only [hmin]
    norm_num [selRecC7]
    exact ⟨rfl, rfl⟩
  refine ⟨rfl, [selRecC7], ⟨exC7st.available, [selRecC7]⟩,
    [selRecC7, selRecC7], ⟨exC7st.available, [selRecC7, selRecC7]⟩,
    ?_, ?_, ?_⟩
  · rw [selAllocate, if_neg (by norm_num)]
    simp only [hloop]
    rfl
  · rw [selAllocate, if_neg (by norm_num)]
    simp only [hloop]
    rfl
  · intro h
    have := congrArg List.length h
    simp at this

/-- C7 amended: `allocate_item_lots_fifo` is deterministic and its in-place
input mutation is self-stabilising — running the allocator on the records as
mutated by a first call yields exactly the same output as the first call, so
repeated calls agree; `LotSelector.allocate`, by contrast, accumulates
`selected_lots` instance state (see the counterexample). -/
theorem claim7_amended_fifo_stable (inp : FifoInput)
    (hok : ∀ r ∈ inp.records, (to_date r.posting).isSome) :
    allocateFifo ⟨inp.item_no, inp.line_no, inp.location_code, inp.qty,
        processRecords inp.records⟩ =
      allocateFifo inp := by
  obtain ⟨i, ln, lc, q, rs⟩ := inp
  unfold allocateFifo
  simp only [processRecords_idem rs hok]

/-- C7 witness: the stability theorem applied to the three-lot example. -/
theorem claim7_witness :
    allocateFifo ⟨exC3.item_no, exC3.line_no, exC3.location_code, exC3.qty,
        processRecords exC3.records⟩ =
      allocateFifo exC3 :=
  claim7_amended_fifo_stable exC3 (by
    intro r hr
    simp only [exC3, List.mem_cons, List.mem_singleton] at hr
    rcases hr with h | h | h | h
    · subst h; rfl
    · subst h; rfl
    · subst h; rfl
    · cases h)

/-- C8: a lot whose posting date does not parse makes the whole
`allocate_item_lots_fifo` call raise: the parse loop catches the date error
and leaves the record untagged, and the grouping step then fails on the
missing `PO` key (`KeyError`), so no result is returned — the malformed date
is never silently defaulted. -/
theorem claim8_malformed_date (inp : FifoInput)
    (hbad : ∃ r ∈ inp.records, to_date r.posting = none) :
    ∃ e, allocateFifo inp = .error e := by
  obtain ⟨r, hr, hnone⟩ := hbad
  have hng : ¬ ((processRecords inp.records).all
      fun x => (toProc x).isSome) = true := by
    intro h
    have := (guard_iff inp.records).mp h r hr
    rw [hnone] at this
    simp at this
  refine ⟨"KeyError", ?_⟩
  unfold allocateFifo
  rw [if_neg hng]

/-- C8 witness: the input `exC8` with posting date `"not-a-date"` makes the
allocator raise. -/
theorem claim8_witness :
    (∃ r ∈ exC8.records, to_date r.posting = none) ∧
      ∃ e, allocateFifo exC8 = .error e := by
  have hbad : ∃ r ∈ exC8.records, to_date r.posting = none :=
    ⟨⟨"L1#24060015-1520", 5, .str "not-a-date", none⟩,
      List.mem_singleton.mpr rfl, rfl⟩
  exact ⟨hbad, claim8_malformed_date exC8 hbad⟩

/-- C9 counterexample: the parse loop of `allocate_item_lots_fifo` mutates
its input records in place — the string `Posting_Date` is replaced by a
parsed date object and a `PO` key is added — so the input is not left
unchanged. -/
theorem claim9_counterexample :
    processRecords [exC9rec] =
        [⟨"L1#24060015-1520", 5, .dt ⟨2024, 1, 1⟩,
          some (some "24060015")⟩] ∧
      processRecords [exC9rec] ≠ [exC9rec] := by
  refine ⟨rfl, ?_⟩
  intro h
  have hmap := congrArg (List.map fun r => r.posting) h
  have e : (processRecords [exC9rec]).map (fun r => r.posting) =
      [DateVal.dt ⟨2024, 1, 1⟩] := rfl
  rw [e] at hmap
  simp [exC9rec] at hmap

/-- C9 amended: the mutation changes only `Posting_Date` and the added `PO`
key — `Lot_No` and `Available_Quantity` of every record are preserved, and
the list keeps its length and order. -/
theorem claim9_amended_mutation (rs : List LotDict) :
    (processRecords rs).map projR = rs.map projR ∧
      (processRecords rs).length = rs.length := by
  constructor
  · unfold processRecords
    rw [List.map_map]
    exact List.map_congr_left fun r _ => projR_stepRec r
  · unfold processRecords
    exact List.length_map rs stepRec

/-- C9 witness: field preservation on the concrete mutated record. -/
theorem claim9_witness :
    (processRecords [exC9rec]).map projR = [exC9rec].map projR ∧
      (processRecords [exC9rec]).length = [exC9rec].length :=
  claim9_amended_mutation [exC9rec]

/-- C10: `allocate_sales_order_lots` returns the empty list when fetching the
per-order lot details raises, and a status/lot_list/selected_lots mapping on
success — two different result shapes. -/
theorem claim10_orchestrator_shape :
    (∀ e, allocateSalesOrderLots (.error e) = .emptyList) ∧
      (∀ ll, allocateSalesOrderLots (.ok ll) =
        .dict "success" ll
          (ll.filterMap fun ld => (allocateFifo ld).toOption)) ∧
      allocateSalesOrderLots (.error "boom") ≠
        allocateSalesOrderLots (.ok []) := by
  refine ⟨fun e => rfl, fun ll => rfl, ?_⟩
  intro h
  simp [allocateSalesOrderLots] at h

end SalesOrder
